import Mathlib

/-!
Verification of the brand-attribution and sales-aggregation engine of the
callimedia sales dashboard (src/utils/brand_analysis.py, src/utils/analysis.py).

The Python code is shallowly embedded in Lean:
  * pandas DataFrames become lists of records,
  * monetary values become exact rationals (the float computations of pandas
    are modelled by exact rational arithmetic; `round(2)` becomes exact
    round-half-to-even at two decimals),
  * float NaN / +inf / -inf values arising in growth-rate divisions become an
    explicit `PVal` type,
  * Python `str.upper()` / `re.IGNORECASE` are modelled by per-character
    ASCII upper-casing (the data domain is ASCII plus Korean, and Korean has
    no case), and `str.strip()` by trimming whitespace characters,
  * Python dicts (insertion ordered) become association lists.
-/

/-! ## Calendar dates -/

/-- A calendar date (pandas Timestamp, normalized to midnight). -/
structure Date where
  year : Int
  month : Nat
  day : Nat
deriving DecidableEq, Repr

/-- Gregorian leap year. -/
def isLeap (y : Int) : Bool :=
  (y.emod 4 == 0 && y.emod 100 != 0) || y.emod 400 == 0

/-- Number of days in a month. -/
def daysInMonth (y : Int) (m : Nat) : Nat :=
  if m = 2 then (if isLeap y then 29 else 28)
  else if m = 4 ∨ m = 6 ∨ m = 9 ∨ m = 11 then 30
  else 31

/-- Days since 1970-01-01 (civil-from-days algorithm). -/
def dayOrdinal (d : Date) : Int :=
  let y : Int := if d.month ≤ 2 then d.year - 1 else d.year
  let era : Int := y.fdiv 400
  let yoe : Int := y - era * 400
  let mp : Int := if d.month > 2 then (d.month : Int) - 3 else (d.month : Int) + 9
  let doy : Int := (153 * mp + 2).fdiv 5 + (d.day : Int) - 1
  let doe : Int := yoe * 365 + yoe.fdiv 4 - yoe.fdiv 100 + doy
  era * 146097 + doe - 719468

/-- Date comparison: `a ≤ b` (lexicographic on year, month, day),
matching pandas Timestamp comparison. -/
def dateLe (a b : Date) : Bool :=
  decide (a.year < b.year) ||
    (decide (a.year = b.year) &&
      (decide (a.month < b.month) ||
        (decide (a.month = b.month) && decide (a.day ≤ b.day))))

/-- Strict date comparison `a < b`. -/
def dateLt (a b : Date) : Bool := !dateLe b a

/-- `date - DateOffset(months=n)` of pandas: shift the month back by `n`,
clamping the day to the length of the target month. -/
def subMonths (d : Date) (n : Nat) : Date :=
  let total : Int := d.year * 12 + ((d.month : Int) - 1) - (n : Int)
  let y : Int := total.fdiv 12
  let m : Nat := (total.emod 12).toNat + 1
  ⟨y, m, min d.day (daysInMonth y m)⟩

/-- `date + DateOffset(months=n)` of pandas. -/
def addMonths (d : Date) (n : Nat) : Date :=
  let total : Int := d.year * 12 + ((d.month : Int) - 1) + (n : Int)
  let y : Int := total.fdiv 12
  let m : Nat := (total.emod 12).toNat + 1
  ⟨y, m, min d.day (daysInMonth y m)⟩

/-! ## String utilities (Python `str.upper`, `str.strip`, `in`, `re.search`) -/

/-- Python `str.upper()` modelled character-wise (ASCII). -/
def upperChars (l : List Char) : List Char := l.map Char.toUpper

/-- Python `str.strip()`: remove leading and trailing whitespace. -/
def stripChars (l : List Char) : List Char :=
  ((l.dropWhile Char.isWhitespace).reverse.dropWhile Char.isWhitespace).reverse

/-- Python substring test `pat in s` on character lists. -/
def infixB (pat l : List Char) : Bool :=
  (List.range (l.length + 1)).any (fun i => (l.drop i).take pat.length == pat)

/-- A regex word character (`\w`): alphanumeric or underscore; non-ASCII
characters (e.g. Korean) count as word characters under Python `re.UNICODE`. -/
def isWordChar (c : Char) : Bool := c.isAlphanum || c == '_' || decide (c.toNat ≥ 128)

/-- Whether the character at index `i` exists and is a word character. -/
def wordAtB (l : List Char) (i : Nat) : Bool :=
  match l.drop i with
  | [] => false
  | c :: _ => isWordChar c

/-- Regex `\b` holds at position `i`: exactly one side of the position is a
word character (out-of-range counts as non-word). -/
def boundaryAtB (l : List Char) (i : Nat) : Bool :=
  (if i = 0 then false else wordAtB l (i - 1)) != wordAtB l i

/-- `re.search(rf'\b{re.escape(v)}\b', s, re.IGNORECASE)` succeeds: some
case-insensitive occurrence of `v` in `s` flanked by word boundaries. -/
def wbMatch (v s : List Char) : Bool :=
  !v.isEmpty && (List.range (s.length + 1)).any (fun i =>
    (upperChars ((s.drop i).take v.length) == upperChars v)
      && boundaryAtB s i && boundaryAtB s (i + v.length))

/-- One iteration of the step-2 matching loop of
`extract_brand_from_product`: the variant matches the (stripped) product
text by case-insensitive substring or by word-boundary search. -/
def variantMatches (v : String) (p : List Char) : Bool :=
  infixB (upperChars v.data) (upperChars p) || wbMatch v.data p

/-! ## Brand classifier (`extract_brand_from_product`) -/

/-- A brand mapping: canonical brand name to its alias list, in dict
insertion order (`Dict[str, List[str]]`). -/
abbrev BrandMapping := List (String × List String)

/-- The regex `^\[([^\]]+)\]` applied to the stripped product text: the
content of a leading bracketed token, if present. -/
def bracketToken (p : List Char) : Option (List Char) :=
  match p with
  | '[' :: rest =>
    let content := rest.takeWhile (fun c => c != ']')
    if content.isEmpty then none
    else if (rest.drop content.length).isEmpty then none
    else some content
  | _ => none

/-- Step 1 of `extract_brand_from_product`: if the text starts with a
bracketed token, return the first brand (in mapping order) one of whose
aliases equals the stripped token case-insensitively. -/
def bracketBrand (p : List Char) (m : BrandMapping) : Option String :=
  match bracketToken p with
  | none => none
  | some tok =>
    let tokU := upperChars (stripChars tok)
    (m.find? (fun bv => bv.2.any (fun v => upperChars v.data == tokU))).map
      (fun bv => bv.1)

/-- All (alias, canonical-brand) pairs in mapping order. -/
def variantPairs (m : BrandMapping) : List (String × String) :=
  m.flatMap (fun bv => bv.2.map (fun v => (v, bv.1)))

/-- Stable insertion used by `stableSort`. -/
def insertStable {α : Type} (le : α → α → Bool) (x : α) : List α → List α
  | [] => [x]
  | y :: ys => if le x y then x :: y :: ys else y :: insertStable le x ys

/-- Stable sort (insertion sort): elements comparing equal keep their
original relative order, as Python `list.sort` guarantees. -/
def stableSort {α : Type} (le : α → α → Bool) (l : List α) : List α :=
  l.foldr (insertStable le) []

/-- The comparison used by `all_variants_with_brand.sort(key=len, reverse=True)`:
`a` may stay before `b` iff `a`'s alias is at least as long. -/
def lenDescLe (a b : String × String) : Bool := decide (b.1.length ≤ a.1.length)

/-- `extract_brand_from_product(product_name, brand_mapping)`:
classify a product description into a canonical brand.
`none` models a missing (NaN) description. -/
def extract_brand_from_product (product_name : Option String)
    (brand_mapping : BrandMapping) : String :=
  match product_name with
  | none => "기타"
  | some s =>
    let p := stripChars s.data
    match bracketBrand p brand_mapping with
    | some b => b
    | none =>
      match (stableSort lenDescLe (variantPairs brand_mapping)).find?
          (fun vb => variantMatches vb.1 p) with
      | some vb => vb.2
      | none => "기타"

/-! ## Kernel-computable rational arithmetic

The standard `ℚ` operations of Mathlib do not reduce inside the kernel
(their normalization step blocks `decide`), so the embedding computes with
the following wrappers, built on `Rat.divInt`, which do reduce. Each is
proved equal to the corresponding standard operation below, and every
theorem reasons through those equations. -/

/-- Kernel-computable addition on `ℚ`. -/
def qadd (a b : ℚ) : ℚ := Rat.divInt (a.num * b.den + b.num * a.den) (a.den * b.den)

/-- Kernel-computable subtraction on `ℚ`. -/
def qsub (a b : ℚ) : ℚ := Rat.divInt (a.num * b.den - b.num * a.den) (a.den * b.den)

/-- Kernel-computable multiplication on `ℚ`. -/
def qmul (a b : ℚ) : ℚ := Rat.divInt (a.num * b.num) (a.den * b.den)

/-- Kernel-computable division on `ℚ` (division by zero yields zero, as in
Mathlib; every use below guards the zero-denominator case explicitly where
pandas would produce NaN or inf). -/
def qdiv (a b : ℚ) : ℚ := Rat.divInt (a.num * b.den) (a.den * b.num)

/-- Kernel-computable list sum on `ℚ`. -/
def qsum (l : List ℚ) : ℚ := l.foldr qadd 0

/-- Kernel-computable `max` on `ℚ`. -/
def qmax (a b : ℚ) : ℚ := if a ≤ b then b else a

/-- Kernel-computable `min` on `ℚ`. -/
def qmin (a b : ℚ) : ℚ := if a ≤ b then a else b

/-! ## Rounding (pandas `.round(2)`, i.e. numpy round-half-to-even) -/

/-- The floor of a rational, written so the kernel can evaluate it. -/
def qfloor (q : ℚ) : ℤ := q.num / q.den

/-- Round a rational to the nearest integer, ties to even. -/
def roundHalfEven (q : ℚ) : ℤ :=
  if qsub q (qfloor q) < Rat.divInt 1 2 then qfloor q
  else if Rat.divInt 1 2 < qsub q (qfloor q) then qfloor q + 1
  else if qfloor q % 2 = 0 then qfloor q else qfloor q + 1

/-- `round(x, 2)`: round to two decimal places, ties to even. -/
def round2 (q : ℚ) : ℚ := qdiv ((roundHalfEven (qmul q 100) : ℤ) : ℚ) 100

/-! ## Pandas float values: NaN and infinities from divisions -/

/-- A pandas cell value produced by a growth-rate division: NaN (rendered as
null), +inf, -inf, or a finite rational. -/
inductive PVal where
  | nan
  | inf
  | ninf
  | val (q : ℚ)
deriving DecidableEq, Repr

/-! ## The sales table -/

/-- One row of the merged sales table. Date, client and amount are the
resolved semantic fields; `product` is the free-text description (`none`
models a NaN cell); `brand` is the 브랜드 column (`none` when the column has
not been added by `add_brand_column`). -/
structure SRow where
  date : Date
  client : String
  product : Option String
  amount : ℚ
  brand : Option String
deriving DecidableEq, Repr

/-- Lexicographic comparison of character lists by code point (the order
pandas uses for string group keys). `String` comparison of the core library
does not reduce in the kernel, hence this explicit version. -/
def charListLe : List Char → List Char → Bool
  | [], _ => true
  | _ :: _, [] => false
  | a :: as, b :: bs =>
    if a.toNat < b.toNat then true
    else if b.toNat < a.toNat then false
    else charListLe as bs

/-- String comparison used for pandas sorted group keys. -/
def stringLeB (a b : String) : Bool := charListLe a.data b.data

/-- Maximum of a list of rationals (groups are nonempty; `0` is a dummy). -/
def qMaxList : List ℚ → ℚ
  | [] => 0
  | x :: xs => xs.foldl qmax x

/-- Minimum of a list of rationals. -/
def qMinList : List ℚ → ℚ
  | [] => 0
  | x :: xs => xs.foldl qmin x

/-- The sorted distinct keys of a `groupby` (pandas sorts group keys). -/
def groupKeys (key : SRow → String) (rows : List SRow) : List String :=
  stableSort stringLeB (rows.map key).dedup

/-! ## By-key aggregation (`analyze_sales_by_client` / `analyze_sales_by_brand`) -/

/-- One row of the by-client / by-brand aggregate: sum, count, mean, max,
min of amount, share of grand total (%), cumulative share (%). -/
structure KeyAgg where
  key : String
  total : ℚ
  cnt : Nat
  mean : ℚ
  maxA : ℚ
  minA : ℚ
  share : ℚ
  cumShare : ℚ
deriving DecidableEq, Repr

/-- `sort_values('총매출액', ascending=False)` comparison (stable model). -/
def totalDescLe (a b : KeyAgg) : Bool := decide (b.total ≤ a.total)

/-- `.cumsum().round(2)` over the share column after sorting. -/
def cumSharesAux (acc : ℚ) : List KeyAgg → List KeyAgg
  | [] => []
  | a :: t =>
    { a with cumShare := round2 (qadd acc a.share) } :: cumSharesAux (qadd acc a.share) t

/-- The grouped aggregation step shared by `analyze_sales_by_client` and
`analyze_sales_by_brand`: one row per distinct key with sum, count, mean,
max and min of amount (share columns still zero). -/
def baseAggs (key : SRow → String) (rows : List SRow) : List KeyAgg :=
  (groupKeys key rows).map (fun k =>
    let amts := (rows.filter (fun r => key r == k)).map (fun r => r.amount)
    { key := k, total := qsum amts, cnt := amts.length,
      mean := qdiv (qsum amts) ((amts.length : ℕ) : ℚ),
      maxA := qMaxList amts, minA := qMinList amts, share := 0, cumShare := 0 })

/-- The grand total: `total_sales = client_sales['총매출액'].sum()`, the sum
of the group totals of the full filtered set. -/
def grandTotalOf (key : SRow → String) (rows : List SRow) : ℚ :=
  qsum ((baseAggs key rows).map (fun a => a.total))

/-- The number of distinct grouping keys in the dataset. -/
def numEntities (key : SRow → String) (rows : List SRow) : Nat :=
  (groupKeys key rows).length

/-- The common body of `analyze_sales_by_client` and `analyze_sales_by_brand`:
group by `key`, aggregate, add each group's share of the grand total
(rounded to two decimals), sort descending by total, add the cumulative
share, keep the top N rows.
Note: `total / grand` is rational division; the grand-total-zero case (where
pandas produces NaN shares) is outside every theorem below, which all assume
a positive grand total. -/
def aggregateByKey (key : SRow → String) (rows : List SRow) (topN : Nat) :
    List KeyAgg :=
  let shared := (baseAggs key rows).map (fun a =>
    { a with share := round2 (qmul (qdiv a.total (grandTotalOf key rows)) 100) })
  (cumSharesAux 0 (stableSort totalDescLe shared)).take topN

/-- `analyze_sales_by_client(df, ..., top_n)`. -/
def analyze_sales_by_client (rows : List SRow) (topN : Nat) : List KeyAgg :=
  aggregateByKey (fun r => r.client) rows topN

/-- `analyze_sales_by_brand(df, ..., top_n)`; requires the 브랜드 column
(rows carry `some` brand after `add_brand_column`; a `none` brand cell would
be dropped by pandas groupby and is keyed here by the sentinel). -/
def analyze_sales_by_brand (rows : List SRow) (topN : Nat) : List KeyAgg :=
  aggregateByKey (fun r => r.brand.getD "기타") rows topN

/-- One row of `analyze_sales_by_product` (no min/max, no cumulative share). -/
structure ProdAgg where
  key : String
  total : ℚ
  cnt : Nat
  mean : ℚ
  share : ℚ
deriving DecidableEq, Repr

/-- `sort_values('총매출액', ascending=False)` comparison for product rows. -/
def prodTotalDescLe (a b : ProdAgg) : Bool := decide (b.total ≤ a.total)

/-- `analyze_sales_by_product(df, ..., top_n)`: like the by-client analysis
but keyed on the product description, without min/max or cumulative share.
Rows with a NaN product are dropped by pandas groupby. -/
def analyze_sales_by_product (rows : List SRow) (topN : Nat) : List ProdAgg :=
  let valid := rows.filter (fun r => r.product.isSome)
  let keys := stableSort stringLeB (valid.map (fun r => r.product.getD "")).dedup
  let base : List ProdAgg := keys.map (fun k =>
    let amts := (valid.filter (fun r => r.product.getD "" == k)).map (fun r => r.amount)
    { key := k, total := qsum amts, cnt := amts.length,
      mean := qdiv (qsum amts) ((amts.length : ℕ) : ℚ), share := 0 })
  let grand := qsum (base.map (fun a => a.total))
  let shared := base.map (fun a => { a with share := round2 (qmul (qdiv a.total grand) 100) })
  (stableSort prodTotalDescLe shared).take topN

/-! ## Period binning (`pd.Grouper(key=date, freq=...)`) -/

/-- The caller-selected period granularity. -/
inductive Freq
  | D
  | W
  | M
  | Q
  | Y
deriving DecidableEq, Repr

/-- The bin index of a date under a granularity. Consecutive calendar
periods get consecutive integers ('W' follows the pandas 'W-SUN' convention
of weeks ending on Sunday). -/
def periodLabel (f : Freq) (d : Date) : Int :=
  match f with
  | .D => dayOrdinal d
  | .W => (dayOrdinal d + 3).fdiv 7
  | .M => d.year * 12 + ((d.month : Int) - 1)
  | .Q => d.year * 4 + ((d.month : Int) - 1).fdiv 3
  | .Y => d.year

/-- Minimum of a list of integers (`0` dummy for the empty list). -/
def intListMin : List Int → Int
  | [] => 0
  | x :: xs => xs.foldl min x

/-- Maximum of a list of integers. -/
def intListMax : List Int → Int
  | [] => 0
  | x :: xs => xs.foldl max x

/-- The closed integer interval `[lo, hi]` as a list. -/
def intRange (lo hi : Int) : List Int :=
  (List.range (hi + 1 - lo).toNat).map (fun k => lo + (Nat.cast k : Int))

/-- The bins a `pd.Grouper(freq=...)` groupby produces: every period from
the earliest to the latest populated one, including empty periods in
between (resample semantics). Empty input produces no bins. -/
def periodBins (f : Freq) (rows : List SRow) : List Int :=
  match rows.map (fun r => periodLabel f r.date) with
  | [] => []
  | l => intRange (intListMin l) (intListMax l)

/-- The rows falling in bin `k`. -/
def rowsInBin (f : Freq) (k : Int) (rows : List SRow) : List SRow :=
  rows.filter (fun r => periodLabel f r.date == k)

/-- Per-bin amount sums (empty bins sum to 0, as pandas `sum()` does). -/
def periodSums (f : Freq) (rows : List SRow) : List ℚ :=
  (periodBins f rows).map (fun k => qsum ((rowsInBin f k rows).map (fun r => r.amount)))

/-- One row of `analyze_sales_by_period`: sum, count and mean of amount for
one period bin (mean is NaN for an empty bin). -/
structure PeriodAgg where
  label : Int
  total : ℚ
  cnt : Nat
  mean : Option ℚ
deriving DecidableEq, Repr

/-- `analyze_sales_by_period(df, ..., period)`. -/
def analyze_sales_by_period (rows : List SRow) (f : Freq) : List PeriodAgg :=
  (periodBins f rows).map (fun k =>
    let g := rowsInBin f k rows
    { label := k, total := qsum (g.map (fun r => r.amount)), cnt := g.length,
      mean := if g.length = 0 then none
              else some (qdiv (qsum (g.map (fun r => r.amount))) ((g.length : ℕ) : ℚ)) })

/-! ## Period-over-period growth (`calculate_growth_rate`) -/

/-- `(cur - prev) / prev * 100`, rounded to two decimals, under pandas float
semantics: a missing previous value (from `shift`) gives NaN; division by a
zero previous value gives NaN when the numerator is zero and ±inf
otherwise. -/
def pctChange (cur : ℚ) (prev : Option ℚ) : PVal :=
  match prev with
  | none => .nan
  | some p =>
    if p = 0 then
      if qsub cur p = 0 then .nan else if 0 < qsub cur p then .inf else .ninf
    else .val (round2 (qmul (qdiv (qsub cur p) p) 100))

/-- One row of `calculate_growth_rate`: the period, its amount sum, the
shifted previous sum (전기매출), the growth rate (성장률), and — only when the
granularity is monthly — the 12-period-lagged sum (전년동기매출) and the
year-over-year growth rate. The outer `Option` on the last two fields
models the presence of those columns. -/
structure GrowthRow where
  label : Int
  total : ℚ
  prev : Option ℚ
  growth : PVal
  yoyPrev : Option (Option ℚ)
  yoyGrowth : Option PVal
deriving DecidableEq, Repr

/-- `calculate_growth_rate(df, ..., period)`. -/
def calculate_growth_rate (rows : List SRow) (f : Freq) : List GrowthRow :=
  let bins := periodBins f rows
  let sums := periodSums f rows
  (List.range bins.length).map (fun i =>
    let cur := sums.getD i 0
    let prev : Option ℚ := if i = 0 then none else sums.get? (i - 1)
    let yp : Option (Option ℚ) :=
      if f = .M then some (if i < 12 then none else sums.get? (i - 12)) else none
    { label := bins.getD i 0, total := cur, prev := prev,
      growth := pctChange cur prev,
      yoyPrev := yp,
      yoyGrowth := yp.map (fun p => pctChange cur p) })

/-! ## Rolling-window growth (`compare_brand_growth` / `get_top_growing_clients`) -/

/-- One output row of the rolling-window growth comparison: the entity, its
recent-window and prior-window sums (NaN for an entity absent from a
window), their difference (성장액), and the growth percentage (성장률). -/
structure WRow where
  entity : String
  recent : Option ℚ
  prev : Option ℚ
  diff : Option ℚ
  growth : PVal
deriving DecidableEq, Repr

/-- NaN-propagating subtraction of pandas columns. -/
def optSub : Option ℚ → Option ℚ → Option ℚ
  | some a, some b => some (qsub a b)
  | _, _ => none

/-- `(recent - prev) / prev * 100` rounded, under pandas float semantics
(NaN operands propagate; division by zero gives NaN or ±inf). -/
def growthOf (r p : Option ℚ) : PVal :=
  match r, p with
  | some rv, some pv =>
    if pv = 0 then
      if qsub rv pv = 0 then .nan else if 0 < qsub rv pv then .inf else .ninf
    else .val (round2 (qmul (qdiv (qsub rv pv) pv) 100))
  | _, _ => .nan

/-- Sort key embedding of a pandas float for descending `sort_values` with
NaN placed last: NaN < -inf < finite values < +inf, so that sorting
descending by this key puts +inf first and NaN last. -/
def pvalKey : PVal → Nat × ℚ
  | .nan => (0, 0)
  | .ninf => (1, 0)
  | .val q => (2, q)
  | .inf => (3, 0)

/-- Lexicographic `≤` on sort keys. -/
def keyLeB (a b : Nat × ℚ) : Bool :=
  decide (a.1 < b.1) || (decide (a.1 = b.1) && decide (a.2 ≤ b.2))

/-- `sort_values('성장률(%)', ascending=False)` comparison (NaN last). -/
def growthDescLe (a b : WRow) : Bool := keyLeB (pvalKey b.growth) (pvalKey a.growth)

/-- Latest date of the dataset (`df[date_col].max()`); dummy for no rows. -/
def maxDateOf : List SRow → Date
  | [] => ⟨1970, 1, 1⟩
  | r :: rs => rs.foldl (fun acc x => if dateLe acc x.date then x.date else acc) r.date

/-- The amount sum of entity `e` over the rows satisfying `pred`, or NaN
(`none`) when the entity has no such row (it is then missing from the
window's groupby index and the DataFrame constructor aligns it as NaN). -/
def windowSum (key : SRow → String) (e : String) (pred : SRow → Bool)
    (rows : List SRow) : Option ℚ :=
  let g := rows.filter (fun r => pred r && (key r == e))
  if g.isEmpty then none else some (qsum (g.map (fun r => r.amount)))

/-- Membership in the recent window: `date >= max_date - months` months. -/
def windowRecentP (rows : List SRow) (months : Nat) : SRow → Bool :=
  fun r => dateLe (subMonths (maxDateOf rows) months) r.date

/-- Membership in the prior window:
`max_date - 2*months <= date < max_date - months`. -/
def windowPrevP (rows : List SRow) (months : Nat) : SRow → Bool :=
  fun r => dateLe (subMonths (maxDateOf rows) (months * 2)) r.date
    && dateLt r.date (subMonths (maxDateOf rows) months)

/-- The index of the joined growth frame: the union of the entities of the
two windows, sorted (pandas aligns the two groupby series on the sorted
union of their indexes). -/
def windowEntities (key : SRow → String) (rows : List SRow) (months : Nat) :
    List String :=
  stableSort stringLeB
    (((rows.filter (windowRecentP rows months)).map key
      ++ (rows.filter (windowPrevP rows months)).map key).dedup)

/-- One joined row of the growth frame for entity `e`. -/
def windowRow (key : SRow → String) (rows : List SRow) (months : Nat)
    (e : String) : WRow :=
  { entity := e,
    recent := windowSum key e (windowRecentP rows months) rows,
    prev := windowSum key e (windowPrevP rows months) rows,
    diff := optSub (windowSum key e (windowRecentP rows months) rows)
      (windowSum key e (windowPrevP rows months) rows),
    growth := growthOf (windowSum key e (windowRecentP rows months) rows)
      (windowSum key e (windowPrevP rows months) rows) }

/-- The common body of `compare_brand_growth` and `get_top_growing_clients`:
recent window = rows with date ≥ max_date - months; prior window = rows with
max_date - 2*months ≤ date < max_date - months; per-entity sums in each
window joined on the union of the entities of the two windows (sorted index
union), growth amount and percentage, sorted descending by growth. -/
def compareGrowth (key : SRow → String) (rows : List SRow) (months : Nat) :
    List WRow :=
  stableSort growthDescLe
    ((windowEntities key rows months).map (windowRow key rows months))

/-- `compare_brand_growth(df, ..., months)` (keyed on the 브랜드 column). -/
def compare_brand_growth (rows : List SRow) (months : Nat) : List WRow :=
  compareGrowth (fun r => r.brand.getD "기타") rows months

/-- `get_top_growing_clients(df, ..., top_n)`: the client comparison over
fixed 6-month windows, truncated to the top N (its frame lacks the 성장액
column; the extra `diff` field here is unused by any claim about it). -/
def get_top_growing_clients (rows : List SRow) (topN : Nat) : List WRow :=
  (compareGrowth (fun r => r.client) rows 6).take topN

/-! ## Forecast (`predict_future_sales`) -/

/-- The forecast result: trailing means of the last 3/6/12 available months,
the OLS slope over the monthly sums, and the per-month predictions as
(month bin, predicted amount) pairs. -/
structure Forecast where
  avg3 : ℚ
  avg6 : ℚ
  avg12 : ℚ
  slope : ℚ
  predictions : List (Int × ℚ)
deriving DecidableEq, Repr

/-- `series.tail(k).mean()`: mean of the last `min(k, n)` values. -/
def tailMean (k : Nat) (l : List ℚ) : ℚ :=
  let t := l.drop (l.length - k)
  qdiv (qsum t) ((t.length : ℕ) : ℚ)

/-- The slope of `np.polyfit(arange(n), ys, 1)`: the ordinary-least-squares
line over `(i, ys i)`, modelled exactly in rationals. -/
def olsSlope (ys : List ℚ) : ℚ :=
  let n : ℚ := ((ys.length : ℕ) : ℚ)
  let xs : List ℚ := (List.range ys.length).map (fun i => ((i : ℕ) : ℚ))
  let sx := qsum xs
  let sy := qsum ys
  let sxy := qsum ((xs.zip ys).map (fun p => qmul p.1 p.2))
  let sxx := qsum (xs.map (fun x => qmul x x))
  qdiv (qsub (qmul n sxy) (qmul sx sy)) (qsub (qmul n sxx) (qmul sx sx))

/-- `predict_future_sales(df, ..., months_ahead)`: monthly sums via the
Grouper bins; with at most one monthly point the function returns `None`
(nothing is reported, not even the trailing means); otherwise the trailing
means, the OLS slope, and for each of the next `months_ahead` months the
prediction `max(0, last_month_sum + slope * i)` labelled by the month bin. -/
def predict_future_sales (rows : List SRow) (monthsAhead : Nat) :
    Option Forecast :=
  let sums := periodSums .M rows
  let bins := periodBins .M rows
  if sums.length ≤ 1 then none
  else
    let slope := olsSlope sums
    let lastLabel := (bins.getLast?).getD 0
    let lastSum := (sums.getLast?).getD 0
    some {
      avg3 := tailMean 3 sums, avg6 := tailMean 6 sums, avg12 := tailMean 12 sums,
      slope := slope,
      predictions := (List.range monthsAhead).map (fun j =>
        (lastLabel + (Int.ofNat j + 1),
          qmax 0 (qadd lastSum (qmul slope (qadd (Nat.cast j) 1))))) }

/-! ## Brand annotation and the mutation model

Each analysis entry point is also given in a state-passing form returning
the pair (dataset object as the caller sees it after the call, result).
The aggregation / growth / forecast functions either only read `df` or
write exclusively to a `df.copy()` (`df_copy` in the source), so their
state-passing forms return the input unchanged; `add_brand_column` assigns
`sales_df['브랜드'] = ...` directly on its argument and returns that same
object. -/

/-- `add_brand_column(sales_df, brand_mapping)`: set the 브랜드 column from
the product description on every row (in place in the source). -/
def add_brand_column (df : List SRow) (m : BrandMapping) : List SRow :=
  df.map (fun r => { r with brand := some (extract_brand_from_product r.product m) })

/-- A row with the 브랜드 column removed (for stating what the annotation
leaves untouched). -/
def eraseBrand (r : SRow) : SRow := { r with brand := none }

/-- State-passing `analyze_sales_by_period` (reads `df`, writes a copy). -/
def analyze_sales_by_period_state (df : List SRow) (f : Freq) :
    List SRow × List PeriodAgg :=
  (df, analyze_sales_by_period df f)

/-- State-passing `analyze_sales_by_client` (only reads `df`). -/
def analyze_sales_by_client_state (df : List SRow) (topN : Nat) :
    List SRow × List KeyAgg :=
  (df, analyze_sales_by_client df topN)

/-- State-passing `analyze_sales_by_product` (only reads `df`). -/
def analyze_sales_by_product_state (df : List SRow) (topN : Nat) :
    List SRow × List ProdAgg :=
  (df, analyze_sales_by_product df topN)

/-- State-passing `analyze_sales_by_brand` (only reads `df`). -/
def analyze_sales_by_brand_state (df : List SRow) (topN : Nat) :
    List SRow × List KeyAgg :=
  (df, analyze_sales_by_brand df topN)

/-- State-passing `calculate_growth_rate` (reads `df`, writes a copy). -/
def calculate_growth_rate_state (df : List SRow) (f : Freq) :
    List SRow × List GrowthRow :=
  (df, calculate_growth_rate df f)

/-- State-passing `compare_brand_growth` (reads `df`, writes a copy). -/
def compare_brand_growth_state (df : List SRow) (months : Nat) :
    List SRow × List WRow :=
  (df, compare_brand_growth df months)

/-- State-passing `get_top_growing_clients` (reads `df`, writes a copy). -/
def get_top_growing_clients_state (df : List SRow) (topN : Nat) :
    List SRow × List WRow :=
  (df, get_top_growing_clients df topN)

/-- State-passing `predict_future_sales` (reads `df`, writes a copy). -/
def predict_future_sales_state (df : List SRow) (monthsAhead : Nat) :
    List SRow × Option Forecast :=
  (df, predict_future_sales df monthsAhead)

/-- State-passing `add_brand_column`: the column assignment happens on the
argument object itself, which is also the returned frame. -/
def add_brand_column_state (df : List SRow) (m : BrandMapping) :
    List SRow × List SRow :=
  (add_brand_column df m, add_brand_column df m)

/-! ## Concrete datasets used by the witnesses and counterexamples -/

/-- Build a sales row from date parts, client name and amount. -/
def mkRow (y : Int) (m d : Nat) (c : String) (a : ℚ) : SRow :=
  { date := ⟨y, m, d⟩, client := c, product := none, amount := a, brand := none }

/-- An alias mapping with a short alias and a longer alias it is a proper
substring of, owned by different brands. -/
def mapPro : BrandMapping := [("BrandPro", ["Pro"]), ("BrandPP", ["ProPresenter"])]

/-- A mapping where a bracket-token alias of brand X coexists with a longer
alias of another brand occurring later in the description. -/
def mapBracket : BrandMapping := [("X", ["BrandX"]), ("Y", ["Widget 100"])]

/-- Three transactions over two months and two clients (the concrete
scenario of the specification). -/
def exSpec : List SRow :=
  [mkRow 2024 1 15 "A" 100, mkRow 2024 2 15 "A" 200, mkRow 2024 2 20 "B" 50]

/-- 30 small clients of 49 each plus one large client; the grand total is
1000000, each small share is 0.0049% (rounds to 0.00) and the large share
is 99.853% (rounds to 99.85), so the rounded shares sum to 99.85. -/
def exDiluted : List SRow :=
  mkRow 2024 1 1 "zz" 998530 ::
    (List.range 30).map (fun i => mkRow 2024 1 1 (String.mk ('c' :: Nat.toDigits 10 i)) 49)

/-- Transactions in January and March 2024 with nothing in February. -/
def exGap : List SRow := [mkRow 2024 1 15 "A" 100, mkRow 2024 3 15 "B" 50]

/-- A month summing to zero followed by a positive month. -/
def exZeroFirst : List SRow := [mkRow 2024 1 15 "A" 0, mkRow 2024 2 15 "A" 100]

/-- Client B trades in both rolling windows; client A only in the prior
window (latest date 2024-12-01, recent window from 2024-06-01). -/
def exWindows : List SRow :=
  [mkRow 2024 12 1 "B" 200, mkRow 2024 8 1 "B" 100, mkRow 2024 1 15 "A" 100]

/-- A dataset whose records all fall in a single calendar month. -/
def exOneMonth : List SRow := [mkRow 2024 5 10 "A" 100]

/-- Monthly totals 100, 200, 300 (the concrete forecast scenario of the
specification, OLS slope 100). -/
def exTrend : List SRow :=
  [mkRow 2024 1 10 "A" 100, mkRow 2024 2 10 "A" 200, mkRow 2024 3 10 "A" 300]

/-- A mapping and a one-row frame for the annotation-mutation counterexample. -/
def mapCanon : BrandMapping := [("Canon", ["Canon", "캐논"])]

/-- A frame without the 브랜드 column. -/
def exNoBrand : List SRow :=
  [{ date := ⟨2024, 1, 1⟩, client := "A", product := some "캐논 EOS R5",
     amount := 10, brand := none }]

/-- Dummy growth row used to destructure concrete outputs in witnesses. -/
def gdummy : GrowthRow :=
  { label := 0, total := 0, prev := none, growth := .nan, yoyPrev := none, yoyGrowth := none }

/-- Dummy forecast used to destructure concrete outputs in witnesses. -/
def fcDummy : Forecast := { avg3 := 0, avg6 := 0, avg12 := 0, slope := 0, predictions := [] }

/-! ## The kernel-computable operations agree with the standard ones -/

theorem qadd_eq (a b : ℚ) : qadd a b = a + b := by
  rw [qadd, Rat.divInt_eq_div]
  have ha : ((a.den : ℚ)) ≠ 0 := Nat.cast_ne_zero.mpr a.den_nz
  have hb : ((b.den : ℚ)) ≠ 0 := Nat.cast_ne_zero.mpr b.den_nz
  conv_rhs => rw [← Rat.num_div_den a, ← Rat.num_div_den b]
  push_cast
  rw [div_add_div _ _ ha hb]
  ring_nf

theorem qsub_eq (a b : ℚ) : qsub a b = a - b := by
  rw [qsub, Rat.divInt_eq_div]
  have ha : ((a.den : ℚ)) ≠ 0 := Nat.cast_ne_zero.mpr a.den_nz
  have hb : ((b.den : ℚ)) ≠ 0 := Nat.cast_ne_zero.mpr b.den_nz
  conv_rhs => rw [← Rat.num_div_den a, ← Rat.num_div_den b]
  push_cast
  rw [div_sub_div _ _ ha hb]
  ring_nf

theorem qmul_eq (a b : ℚ) : qmul a b = a * b := by
  rw [qmul, Rat.divInt_eq_div]
  conv_rhs => rw [← Rat.num_div_den a, ← Rat.num_div_den b]
  push_cast
  rw [div_mul_div_comm]

theorem qdiv_eq (a b : ℚ) : qdiv a b = a / b := by
  by_cases hb0 : b = 0
  · subst hb0
    rw [qdiv]
    norm_num
  · rw [qdiv, Rat.divInt_eq_div]
    have ha : ((a.den : ℚ)) ≠ 0 := Nat.cast_ne_zero.mpr a.den_nz
    have hb : ((b.den : ℚ)) ≠ 0 := Nat.cast_ne_zero.mpr b.den_nz
    have hbn : ((b.num : ℚ)) ≠ 0 := by exact_mod_cast Rat.num_ne_zero.mpr hb0
    conv_rhs => rw [← Rat.num_div_den a, ← Rat.num_div_den b]
    push_cast
    field_simp

theorem qsum_eq (l : List ℚ) : qsum l = l.sum := by
  induction l with
  | nil => rfl
  | cons x t ih =>
    rw [qsum, List.foldr_cons, List.sum_cons]
    rw [show List.foldr qadd 0 t = qsum t from rfl, ih, qadd_eq]

theorem qmax_eq (a b : ℚ) : qmax a b = max a b := by
  rw [qmax, max_def]

theorem qmin_eq (a b : ℚ) : qmin a b = min a b := by
  rw [qmin, min_def]

theorem qfloor_eq (q : ℚ) : qfloor q = ⌊q⌋ := Rat.floor_def.symm

/-! ## Stable sort: permutation and sortedness -/

theorem insertStable_perm {α : Type} (le : α → α → Bool) (x : α) (l : List α) :
    List.Perm (insertStable le x l) (x :: l) := by
  induction l with
  | nil => exact List.Perm.refl _
  | cons y ys ih =>
    rw [insertStable]
    by_cases h : le x y
    · rw [if_pos h]
    · rw [if_neg h]
      exact (ih.cons y).trans (List.Perm.swap x y ys)

theorem stableSort_perm {α : Type} (le : α → α → Bool) (l : List α) :
    List.Perm (stableSort le l) l := by
  induction l with
  | nil => exact List.Perm.refl _
  | cons x t ih =>
    rw [stableSort, List.foldr_cons]
    have h1 : List.Perm (List.foldr (insertStable le) [] t) t := ih
    exact (insertStable_perm le x _).trans (h1.cons x)

theorem insertStable_pairwise {α : Type} (le : α → α → Bool)
    (htot : ∀ a b, le a b = true ∨ le b a = true)
    (htrans : ∀ a b c, le a b = true → le b c = true → le a c = true)
    (x : α) (l : List α) (h : List.Pairwise (fun a b => le a b = true) l) :
    List.Pairwise (fun a b => le a b = true) (insertStable le x l) := by
  induction l with
  | nil => simp [insertStable]
  | cons y ys ih =>
    rcases List.pairwise_cons.mp h with ⟨hy, hys⟩
    rw [insertStable]
    by_cases hxy : le x y
    · rw [if_pos hxy]
      refine List.pairwise_cons.mpr ⟨?_, h⟩
      intro z hz
      rcases List.mem_cons.mp hz with rfl | hz'
      · exact hxy
      · exact htrans x y z hxy (hy z hz')
    · rw [if_neg hxy]
      have hyx : le y x = true := (htot x y).resolve_left hxy
      refine List.pairwise_cons.mpr ⟨?_, ih hys⟩
      intro z hz
      have hz' := (insertStable_perm le x ys).mem_iff.mp hz
      rcases List.mem_cons.mp hz' with rfl | hz''
      · exact hyx
      · exact hy z hz''

theorem stableSort_pairwise {α : Type} (le : α → α → Bool)
    (htot : ∀ a b, le a b = true ∨ le b a = true)
    (htrans : ∀ a b c, le a b = true → le b c = true → le a c = true)
    (l : List α) :
    List.Pairwise (fun a b => le a b = true) (stableSort le l) := by
  induction l with
  | nil => simp [stableSort]
  | cons x t ih =>
    rw [stableSort, List.foldr_cons]
    exact insertStable_pairwise le htot htrans x _ ih

/-! ## `find?` returns the unique longest match in a length-sorted list -/

theorem find?_max {α : Type} (len : α → Nat) (p : α → Bool) (l : List α) (e : α)
    (hpw : List.Pairwise (fun a b => len b ≤ len a) l)
    (hmem : e ∈ l) (hpe : p e = true)
    (hmax : ∀ x ∈ l, p x = true → x = e ∨ len x < len e) :
    l.find? p = some e := by
  induction l with
  | nil => exact absurd hmem (List.not_mem_nil e)
  | cons a t ih =>
    rcases List.pairwise_cons.mp hpw with ⟨hat, htail⟩
    by_cases hpa : p a = true
    · rw [List.find?_cons_of_pos _ hpa]
      rcases hmax a (List.mem_cons_self a t) hpa with heq | hlt
      · rw [heq]
      · exfalso
        rcases List.mem_cons.mp hmem with rfl | het
        · omega
        · have := hat e het
          omega
    · rw [List.find?_cons_of_neg _ (by simpa using hpa)]
      rcases List.mem_cons.mp hmem with rfl | het
      · exact absurd hpe hpa
      · exact ih htail het (fun x hx hpx => hmax x (List.mem_cons_of_mem a hx) hpx)

/-! ## Rounding error bounds -/

theorem divInt_one_two : Rat.divInt 1 2 = (1 : ℚ)/2 := by
  rw [Rat.divInt_eq_div]
  norm_num

theorem roundHalfEven_sub_le (q : ℚ) : |(roundHalfEven q : ℚ) - q| ≤ 1/2 := by
  rw [roundHalfEven]
  simp only [qsub_eq, qfloor_eq, divInt_one_two]
  have h0 : (⌊q⌋ : ℚ) ≤ q := Int.floor_le q
  have h1 : q < ⌊q⌋ + 1 := Int.lt_floor_add_one q
  split_ifs with hc1 hc2 he
  · rw [abs_le]
    constructor <;> linarith
  · push_cast
    rw [abs_le]
    constructor <;> linarith
  · rw [abs_le]
    constructor <;> linarith
  · push_cast
    rw [abs_le]
    constructor <;> linarith

theorem roundHalfEven_intCast (z : ℤ) : roundHalfEven ((z : ℤ) : ℚ) = z := by
  rw [roundHalfEven]
  simp only [qsub_eq, qfloor_eq, divInt_one_two, Int.floor_intCast, sub_self]
  norm_num

theorem round2_sub_le (q : ℚ) : |round2 q - q| ≤ 1/200 := by
  rw [round2, qdiv_eq, qmul_eq]
  have h := roundHalfEven_sub_le (q * 100)
  have heq : (roundHalfEven (q * 100) : ℚ)/100 - q
      = ((roundHalfEven (q * 100) : ℚ) - q * 100)/100 := by ring
  rw [heq, abs_div, show |(100 : ℚ)| = 100 by norm_num,
    show (1 : ℚ)/200 = (1/2)/100 by norm_num]
  exact (div_le_div_right (by norm_num)).mpr h

theorem round2_cent (z : ℤ) : round2 ((z : ℚ)/100) = (z : ℚ)/100 := by
  rw [round2, qdiv_eq, qmul_eq]
  rw [show ((z : ℚ)/100) * 100 = ((z : ℤ) : ℚ) from div_mul_cancel₀ _ (by norm_num)]
  rw [roundHalfEven_intCast]

theorem round2_form (q : ℚ) : ∃ z : ℤ, round2 q = (z : ℚ)/100 :=
  ⟨roundHalfEven (qmul q 100), by rw [round2, qdiv_eq]⟩

theorem sum_cent_form (l : List ℚ) (h : ∀ x ∈ l, ∃ z : ℤ, x = (z : ℚ)/100) :
    ∃ z : ℤ, l.sum = (z : ℚ)/100 := by
  induction l with
  | nil => exact ⟨0, by simp⟩
  | cons x t ih =>
    rcases h x (List.mem_cons_self x t) with ⟨z1, hz1⟩
    rcases ih (fun y hy => h y (List.mem_cons_of_mem x hy)) with ⟨z2, hz2⟩
    refine ⟨z1 + z2, ?_⟩
    rw [List.sum_cons, hz1, hz2]
    push_cast
    ring

theorem sum_round2_sub_le (l : List ℚ) :
    |(l.map round2).sum - l.sum| ≤ (l.length : ℚ) * (1/200) := by
  induction l with
  | nil => simp
  | cons x t ih =>
    simp only [List.map_cons, List.sum_cons, List.length_cons]
    have heq : (round2 x + (t.map round2).sum) - (x + t.sum)
        = (round2 x - x) + ((t.map round2).sum - t.sum) := by ring
    rw [heq]
    calc |(round2 x - x) + ((t.map round2).sum - t.sum)|
        ≤ |round2 x - x| + |(t.map round2).sum - t.sum| := abs_add _ _
      _ ≤ 1/200 + (t.length : ℚ) * (1/200) := add_le_add (round2_sub_le x) ih
      _ = ((t.length : ℚ) + 1) * (1/200) := by ring
      _ = (((t.length + 1 : ℕ)) : ℚ) * (1/200) := by push_cast; ring

/-! ## Cumulative share bookkeeping -/

theorem cumSharesAux_map_share (acc : ℚ) (l : List KeyAgg) :
    (cumSharesAux acc l).map (fun a => a.share) = l.map (fun a => a.share) := by
  induction l generalizing acc with
  | nil => rfl
  | cons a t ih =>
    simp only [cumSharesAux, List.map_cons]
    rw [ih]

theorem cumSharesAux_length (acc : ℚ) (l : List KeyAgg) :
    (cumSharesAux acc l).length = l.length := by
  induction l generalizing acc with
  | nil => rfl
  | cons a t ih =>
    simp only [cumSharesAux, List.length_cons]
    rw [ih]

theorem cumSharesAux_getLast (acc : ℚ) (l : List KeyAgg) (h : l ≠ []) :
    ((cumSharesAux acc l).getLast?).map (fun a => a.cumShare)
      = some (round2 (acc + (l.map (fun a => a.share)).sum)) := by
  induction l generalizing acc with
  | nil => exact absurd rfl h
  | cons a t ih =>
    cases t with
    | nil =>
      simp [cumSharesAux, qadd_eq]
    | cons b t2 =>
      have hstep : cumSharesAux acc (a :: b :: t2)
          = { a with cumShare := round2 (qadd acc a.share) }
            :: { b with cumShare := round2 (qadd (qadd acc a.share) b.share) }
            :: cumSharesAux (qadd (qadd acc a.share) b.share) t2 := rfl
      have hstep2 : cumSharesAux (qadd acc a.share) (b :: t2)
          = { b with cumShare := round2 (qadd (qadd acc a.share) b.share) }
            :: cumSharesAux (qadd (qadd acc a.share) b.share) t2 := rfl
      rw [hstep, List.getLast?_cons_cons, ← hstep2]
      rw [ih (qadd acc a.share) (by simp)]
      rw [qadd_eq]
      congr 2
      simp only [List.map_cons, List.sum_cons]
      ring

/-! ## Totality and transitivity of the sort comparisons -/

theorem lenDescLe_total (a b : String × String) :
    lenDescLe a b = true ∨ lenDescLe b a = true := by
  simp only [lenDescLe, decide_eq_true_eq]
  omega

theorem lenDescLe_trans (a b c : String × String)
    (h1 : lenDescLe a b = true) (h2 : lenDescLe b c = true) :
    lenDescLe a c = true := by
  simp only [lenDescLe, decide_eq_true_eq] at h1 h2 ⊢
  omega

theorem totalDescLe_total (a b : KeyAgg) :
    totalDescLe a b = true ∨ totalDescLe b a = true := by
  simp only [totalDescLe, decide_eq_true_eq]
  exact (le_total b.total a.total).elim Or.inl Or.inr

theorem totalDescLe_trans (a b c : KeyAgg)
    (h1 : totalDescLe a b = true) (h2 : totalDescLe b c = true) :
    totalDescLe a c = true := by
  simp only [totalDescLe, decide_eq_true_eq] at h1 h2 ⊢
  exact le_trans h2 h1

theorem charListLe_total (a : List Char) : ∀ b, charListLe a b = true ∨ charListLe b a = true := by
  induction a with
  | nil => intro b; left; rfl
  | cons x xs ih =>
    intro b
    cases b with
    | nil => right; rfl
    | cons y ys =>
      simp only [charListLe]
      rcases Nat.lt_trichotomy x.toNat y.toNat with h | h | h
      · left
        rw [if_pos h]
      · rw [if_neg (by omega), if_neg (by omega), if_neg (by omega), if_neg (by omega)]
        exact ih ys
      · right
        rw [if_pos h]

theorem charListLe_trans (a : List Char) : ∀ b c, charListLe a b = true →
    charListLe b c = true → charListLe a c = true := by
  induction a with
  | nil => intro b c _ _; rfl
  | cons x xs ih =>
    intro b c h1 h2
    cases b with
    | nil => simp [charListLe] at h1
    | cons y ys =>
      cases c with
      | nil => simp [charListLe] at h2
      | cons z zs =>
        simp only [charListLe] at h1 h2 ⊢
        by_cases hxy : x.toNat < y.toNat
        · by_cases hyz : y.toNat < z.toNat
          · rw [if_pos (by omega)]
          · by_cases hzy : z.toNat < y.toNat
            · rw [if_neg hyz, if_pos hzy] at h2
              exact absurd h2 (by simp)
            · rw [if_pos (by omega)]
        · by_cases hyx : y.toNat < x.toNat
          · rw [if_neg hxy, if_pos hyx] at h1
            exact absurd h1 (by simp)
          · rw [if_neg hxy, if_neg hyx] at h1
            by_cases hyz : y.toNat < z.toNat
            · rw [if_pos (by omega)]
            · by_cases hzy : z.toNat < y.toNat
              · rw [if_neg hyz, if_pos hzy] at h2
                exact absurd h2 (by simp)
              · rw [if_neg hyz, if_neg hzy] at h2
                rw [if_neg (by omega), if_neg (by omega)]
                exact ih ys zs h1 h2

theorem stringLeB_total (a b : String) : stringLeB a b = true ∨ stringLeB b a = true :=
  charListLe_total a.data b.data

theorem stringLeB_trans (a b c : String) (h1 : stringLeB a b = true)
    (h2 : stringLeB b c = true) : stringLeB a c = true :=
  charListLe_trans a.data b.data c.data h1 h2

theorem keyLeB_total (a b : Nat × ℚ) : keyLeB a b = true ∨ keyLeB b a = true := by
  simp only [keyLeB, Bool.or_eq_true, Bool.and_eq_true, decide_eq_true_eq]
  rcases Nat.lt_trichotomy a.1 b.1 with h | h | h
  · exact Or.inl (Or.inl h)
  · rcases le_total a.2 b.2 with h2 | h2
    · exact Or.inl (Or.inr ⟨h, h2⟩)
    · exact Or.inr (Or.inr ⟨h.symm, h2⟩)
  · exact Or.inr (Or.inl h)

theorem keyLeB_trans (a b c : Nat × ℚ) (h1 : keyLeB a b = true)
    (h2 : keyLeB b c = true) : keyLeB a c = true := by
  simp only [keyLeB, Bool.or_eq_true, Bool.and_eq_true, decide_eq_true_eq] at h1 h2 ⊢
  rcases h1 with h1 | ⟨h1e, h1q⟩
  · rcases h2 with h2 | ⟨h2e, _⟩
    · exact Or.inl (h1.trans h2)
    · exact Or.inl (h2e ▸ h1)
  · rcases h2 with h2 | ⟨h2e, h2q⟩
    · exact Or.inl (h1e ▸ h2)
    · exact Or.inr ⟨h1e.trans h2e, h1q.trans h2q⟩

theorem growthDescLe_total (a b : WRow) :
    growthDescLe a b = true ∨ growthDescLe b a = true :=
  keyLeB_total (pvalKey b.growth) (pvalKey a.growth)

theorem growthDescLe_trans (a b c : WRow) (h1 : growthDescLe a b = true)
    (h2 : growthDescLe b c = true) : growthDescLe a c = true :=
  keyLeB_trans (pvalKey c.growth) (pvalKey b.growth) (pvalKey a.growth) h2 h1

/-! ## Claim C1: longest-alias precedence -/

/-- C1: when the bracketed fast path does not fire, the classifier returns
the brand of the longest matching alias: if `vb` is a matching
(alias, brand) pair of the mapping and every other matching pair has a
strictly shorter alias, the result is `vb`'s brand — never the brand of a
shorter alias that also occurs in the description. -/
theorem C1_longest_alias_precedence (m : BrandMapping) (s : String)
    (vb : String × String)
    (hbr : bracketBrand (stripChars s.data) m = none)
    (hmem : vb ∈ variantPairs m)
    (hmatch : variantMatches vb.1 (stripChars s.data) = true)
    (hmax : ∀ x ∈ variantPairs m, variantMatches x.1 (stripChars s.data) = true →
      x = vb ∨ x.1.length < vb.1.length) :
    extract_brand_from_product (some s) m = vb.2 := by
  have hsorted : List.Pairwise (fun a b : String × String => b.1.length ≤ a.1.length)
      (stableSort lenDescLe (variantPairs m)) :=
    (stableSort_pairwise lenDescLe lenDescLe_total lenDescLe_trans (variantPairs m)).imp
      (fun h => by simpa [lenDescLe] using h)
  have hperm := stableSort_perm lenDescLe (variantPairs m)
  have hfind := find?_max (fun x : String × String => x.1.length)
    (fun x => variantMatches x.1 (stripChars s.data))
    (stableSort lenDescLe (variantPairs m)) vb hsorted
    (hperm.mem_iff.mpr hmem) hmatch
    (fun x hx hpx => hmax x (hperm.mem_iff.mp hx) hpx)
  simp only [extract_brand_from_product]
  rw [hbr, hfind]

/-- C1 witness: with aliases Pro (brand BrandPro) and ProPresenter (brand
BrandPP) and a description containing ProPresenter, the classifier returns
BrandPP, not BrandPro. -/
theorem C1_witness :
    extract_brand_from_product (some "ProPresenter 7 License") mapPro = "BrandPP" :=
  C1_longest_alias_precedence mapPro "ProPresenter 7 License" ("ProPresenter", "BrandPP")
    (by decide) (by decide) (by decide) (by decide)

/-! ## Claim C2: bracketed-prefix fast path -/

/-- C2: if the (stripped) description starts with a bracketed token whose
stripped content case-insensitively equals an alias of brand `X` — and of
no other brand — the classifier returns `X` immediately, regardless of any
other (possibly longer) alias occurring elsewhere in the description. -/
theorem C2_bracket_fast_path (m : BrandMapping) (s : String) (X : String)
    (t : List Char)
    (htok : bracketToken (stripChars s.data) = some t)
    (hex : ∃ bv ∈ m, bv.1 = X ∧ ∃ v ∈ bv.2, upperChars v.data = upperChars (stripChars t))
    (huniq : ∀ bv ∈ m,
      (∃ v ∈ bv.2, upperChars v.data = upperChars (stripChars t)) → bv.1 = X) :
    extract_brand_from_product (some s) m = X := by
  have hb : bracketBrand (stripChars s.data) m = some X := by
    simp only [bracketBrand, htok]
    rcases hex with ⟨bv, hbv, hX, v, hv, heq⟩
    cases hf : m.find?
        (fun bv2 => bv2.2.any (fun v2 => upperChars v2.data == upperChars (stripChars t))) with
    | none =>
      exfalso
      apply List.find?_eq_none.mp hf bv hbv
      simp only [List.any_eq_true]
      exact ⟨v, hv, beq_iff_eq.mpr heq⟩
    | some bv2 =>
      have hq := List.find?_some hf
      have hm2 := List.mem_of_find?_eq_some hf
      simp only [List.any_eq_true] at hq
      rcases hq with ⟨v2, hv2, heq2⟩
      have : bv2.1 = X := huniq bv2 hm2 ⟨v2, hv2, beq_iff_eq.mp heq2⟩
      simp [this]
  simp only [extract_brand_from_product]
  rw [hb]

/-- C2 witness: the description is `[BrandX] Widget 100`, `BrandX` is an
alias of X, and `Widget 100` — a longer alias of Y occurring in the text —
does not preempt the bracket match. -/
theorem C2_witness :
    extract_brand_from_product (some "[BrandX] Widget 100") mapBracket = "X" :=
  C2_bracket_fast_path mapBracket "[BrandX] Widget 100" "X" ("BrandX".data)
    (by decide) (by decide) (by decide)

/-! ## Claim C10: the classifier's codomain -/

/-- C10: for every (possibly missing) description and every mapping, the
classifier's result is a canonical key of the mapping or the sentinel 기타
(it never returns a bare alias); with an empty mapping it is always 기타. -/
theorem C10_codomain (p : Option String) (m : BrandMapping) :
    (extract_brand_from_product p m = "기타"
      ∨ extract_brand_from_product p m ∈ m.map (fun bv => bv.1))
    ∧ (m = [] → extract_brand_from_product p m = "기타") := by
  constructor
  · cases p with
    | none => exact Or.inl rfl
    | some s =>
      simp only [extract_brand_from_product]
      cases hb : bracketBrand (stripChars s.data) m with
      | some b =>
        right
        rw [bracketBrand] at hb
        cases ht : bracketToken (stripChars s.data) with
        | none =>
          rw [ht] at hb
          exact absurd hb (by simp)
        | some tok =>
          rw [ht] at hb
          simp only [Option.map_eq_some'] at hb
          rcases hb with ⟨bv, hf, rfl⟩
          exact List.mem_map.mpr ⟨bv, List.mem_of_find?_eq_some hf, rfl⟩
      | none =>
        cases hfind : (stableSort lenDescLe (variantPairs m)).find?
            (fun vb => variantMatches vb.1 (stripChars s.data)) with
        | none => exact Or.inl rfl
        | some vb =>
          right
          have hmem := (stableSort_perm lenDescLe (variantPairs m)).mem_iff.mp
            (List.mem_of_find?_eq_some hfind)
          rw [variantPairs] at hmem
          rcases List.mem_flatMap.mp hmem with ⟨bv, hbv, hvb⟩
          rcases List.mem_map.mp hvb with ⟨v, _, hpair⟩
          have hv2 : vb.2 = bv.1 := by rw [← hpair]
          change vb.2 ∈ List.map (fun bv => bv.1) m
          rw [hv2]
          exact List.mem_map.mpr ⟨bv, hbv, rfl⟩
  · rintro rfl
    cases p with
    | none => rfl
    | some s =>
      have hb : bracketBrand (stripChars s.data) [] = none := by
        rw [bracketBrand]
        cases ht : bracketToken (stripChars s.data) <;> simp
      simp only [extract_brand_from_product]
      rw [hb]
      rfl

/-- C10 witness: a missing description with the empty mapping yields 기타. -/
theorem C10_witness : extract_brand_from_product none [] = "기타" :=
  (C10_codomain none []).2 rfl

/-! ## Claim C3: share-of-total sums -/

set_option maxRecDepth 20000 in
/-- C3 counterexample: over `exDiluted` (31 clients, positive grand total
1000000) with top-N equal to the number of clients, the rounded shares sum
to 99.85, deviating from 100 by 0.15 — outside the claimed ±0.1 tolerance. -/
theorem C3_counterexample :
    qsum ((analyze_sales_by_client exDiluted 31).map (fun a => a.share)) = Rat.divInt 9985 100
    ∧ Rat.divInt 1 10
        < qsub 100 (qsum ((analyze_sales_by_client exDiluted 31).map (fun a => a.share))) := by
  constructor
  · decide
  · decide

/-- C3 as amended: with a positive grand total and top-N equal to the number
of distinct entities, the rounded shares sum to 100 within ±0.005 per
entity (±0.005·n in total, which can exceed 0.1 beyond 20 entities), and the
final cumulative share equals the sum of the rounded shares exactly. -/
theorem C3_amended_share_sum (key : SRow → String) (rows : List SRow) (topN : Nat)
    (hgrand : 0 < grandTotalOf key rows)
    (htop : topN = numEntities key rows) :
    |((aggregateByKey key rows topN).map (fun a => a.share)).sum - 100|
        ≤ (numEntities key rows : ℚ) * (1/200)
    ∧ ((aggregateByKey key rows topN).getLast?).map (fun a => a.cumShare)
        = some (((aggregateByKey key rows topN).map (fun a => a.share)).sum) := by
  have hG : grandTotalOf key rows ≠ 0 := ne_of_gt hgrand
  set G := grandTotalOf key rows with hGdef
  set shared := (baseAggs key rows).map (fun a =>
    { a with share := round2 (qmul (qdiv a.total G) 100) }) with hshared
  set sorted := stableSort totalDescLe shared with hsorted
  -- the top-N truncation keeps everything
  have hlen_base : (baseAggs key rows).length = numEntities key rows := by
    rw [baseAggs, numEntities, List.length_map]
  have hlen_shared : shared.length = numEntities key rows := by
    rw [hshared, List.length_map, hlen_base]
  have hlen_sorted : sorted.length = numEntities key rows := by
    rw [hsorted, (stableSort_perm totalDescLe shared).length_eq, hlen_shared]
  have hout : aggregateByKey key rows topN = cumSharesAux 0 sorted := by
    rw [aggregateByKey, htop, ← hlen_sorted, ← cumSharesAux_length 0 sorted]
    exact List.take_length _
  -- the share column of the output
  have hshares : (aggregateByKey key rows topN).map (fun a => a.share)
      = sorted.map (fun a => a.share) := by
    rw [hout, cumSharesAux_map_share]
  have hsum_sorted : (sorted.map (fun a => a.share)).sum
      = (shared.map (fun a => a.share)).sum :=
    ((stableSort_perm totalDescLe shared).map (fun a => a.share)).sum_eq
  have hshared_shares : shared.map (fun a => a.share)
      = ((baseAggs key rows).map (fun a => a.total / G * 100)).map round2 := by
    rw [hshared, List.map_map, List.map_map]
    apply List.map_congr_left
    intro a _
    simp only [Function.comp_apply, qmul_eq, qdiv_eq]
  -- the exact shares sum to 100
  have hexact : ((baseAggs key rows).map (fun a => a.total / G * 100)).sum = 100 := by
    have h1 : ((baseAggs key rows).map (fun a => a.total / G * 100))
        = (baseAggs key rows).map (fun a => a.total * (100 / G)) := by
      apply List.map_congr_left
      intro a _
      field_simp
    rw [h1, List.sum_map_mul_right]
    have h2 : ((baseAggs key rows).map (fun a => a.total)).sum = G := by
      rw [hGdef, grandTotalOf, qsum_eq]
    rw [h2]
    field_simp
  constructor
  · rw [hshares, hsum_sorted, hshared_shares]
    have hb := sum_round2_sub_le ((baseAggs key rows).map (fun a => a.total / G * 100))
    rw [hexact, List.length_map, hlen_base] at hb
    exact hb
  · have hne : sorted ≠ [] := by
      intro hx
      have : numEntities key rows = 0 := by rw [← hlen_sorted, hx]; rfl
      have hb0 : baseAggs key rows = [] := List.length_eq_zero.mp (by rw [hlen_base, this])
      rw [hGdef, grandTotalOf, hb0] at hgrand
      simp [qsum_eq] at hgrand
    rw [hout, cumSharesAux_getLast 0 sorted hne, zero_add]
    have hform : ∃ z : ℤ, (sorted.map (fun a => a.share)).sum = (z : ℚ)/100 := by
      apply sum_cent_form
      intro x hx
      rcases List.mem_map.mp hx with ⟨a, ha, rfl⟩
      have ha2 := (stableSort_perm totalDescLe shared).mem_iff.mp ha
      rw [hshared] at ha2
      rcases List.mem_map.mp ha2 with ⟨b, _, rfl⟩
      exact round2_form _
    rcases hform with ⟨z, hz⟩
    rw [cumSharesAux_map_share, hz, round2_cent]

/-- C3 witness: the amended statement at the concrete two-client scenario
(shares 85.71 and 14.29, final cumulative share 100). -/
theorem C3_witness :
    |((aggregateByKey (fun r => r.client) exSpec 2).map (fun a => a.share)).sum - 100|
        ≤ (numEntities (fun r => r.client) exSpec : ℚ) * (1/200)
    ∧ ((aggregateByKey (fun r => r.client) exSpec 2).getLast?).map (fun a => a.cumShare)
        = some (((aggregateByKey (fun r => r.client) exSpec 2).map (fun a => a.share)).sum) :=
  C3_amended_share_sum (fun r => r.client) exSpec 2 (by decide) (by decide)

/-! ## Integer ranges and list extrema -/

theorem mem_intRange {lo hi k : Int} : k ∈ intRange lo hi ↔ lo ≤ k ∧ k ≤ hi := by
  simp only [intRange, List.mem_map, List.mem_range]
  constructor
  · rintro ⟨j, hj, rfl⟩
    omega
  · rintro ⟨h1, h2⟩
    exact ⟨(k - lo).toNat, by omega, by omega⟩

theorem foldl_min_le_init (l : List Int) (a : Int) : l.foldl min a ≤ a := by
  induction l generalizing a with
  | nil => simp
  | cons x t ih =>
    simp only [List.foldl_cons]
    exact le_trans (ih (min a x)) (min_le_left a x)

theorem foldl_min_le_mem (l : List Int) (a x : Int) (hx : x ∈ l) : l.foldl min a ≤ x := by
  induction l generalizing a with
  | nil => cases hx
  | cons y t ih =>
    simp only [List.foldl_cons]
    rcases List.mem_cons.mp hx with rfl | h
    · exact le_trans (foldl_min_le_init t (min a x)) (min_le_right a x)
    · exact ih (min a y) h

theorem foldl_min_mem (l : List Int) (a : Int) : l.foldl min a = a ∨ l.foldl min a ∈ l := by
  induction l generalizing a with
  | nil => exact Or.inl rfl
  | cons x t ih =>
    simp only [List.foldl_cons]
    rcases ih (min a x) with h | h
    · rcases min_choice a x with hc | hc
      · left
        rw [h, hc]
      · right
        rw [h, hc]
        exact List.mem_cons_self x t
    · exact Or.inr (List.mem_cons_of_mem x h)

theorem foldl_max_init_le (l : List Int) (a : Int) : a ≤ l.foldl max a := by
  induction l generalizing a with
  | nil => simp
  | cons x t ih =>
    simp only [List.foldl_cons]
    exact le_trans (le_max_left a x) (ih (max a x))

theorem foldl_max_mem_le (l : List Int) (a x : Int) (hx : x ∈ l) : x ≤ l.foldl max a := by
  induction l generalizing a with
  | nil => cases hx
  | cons y t ih =>
    simp only [List.foldl_cons]
    rcases List.mem_cons.mp hx with rfl | h
    · exact le_trans (le_max_right a x) (foldl_max_init_le t (max a x))
    · exact ih (max a y) h

theorem foldl_max_mem (l : List Int) (a : Int) : l.foldl max a = a ∨ l.foldl max a ∈ l := by
  induction l generalizing a with
  | nil => exact Or.inl rfl
  | cons x t ih =>
    simp only [List.foldl_cons]
    rcases ih (max a x) with h | h
    · rcases max_choice a x with hc | hc
      · left
        rw [h, hc]
      · right
        rw [h, hc]
        exact List.mem_cons_self x t
    · exact Or.inr (List.mem_cons_of_mem x h)

theorem intListMin_le (l : List Int) (x : Int) (hx : x ∈ l) : intListMin l ≤ x := by
  cases l with
  | nil => cases hx
  | cons y t =>
    rw [intListMin]
    rcases List.mem_cons.mp hx with rfl | h
    · exact foldl_min_le_init t x
    · exact foldl_min_le_mem t y x h

theorem intListMin_mem (l : List Int) (h : l ≠ []) : intListMin l ∈ l := by
  cases l with
  | nil => exact absurd rfl h
  | cons y t =>
    rw [intListMin]
    rcases foldl_min_mem t y with h1 | h1
    · rw [h1]
      exact List.mem_cons_self y t
    · exact List.mem_cons_of_mem y h1

theorem le_intListMax (l : List Int) (x : Int) (hx : x ∈ l) : x ≤ intListMax l := by
  cases l with
  | nil => cases hx
  | cons y t =>
    rw [intListMax]
    rcases List.mem_cons.mp hx with rfl | h
    · exact foldl_max_init_le t x
    · exact foldl_max_mem_le t y x h

theorem intListMax_mem (l : List Int) (h : l ≠ []) : intListMax l ∈ l := by
  cases l with
  | nil => exact absurd rfl h
  | cons y t =>
    rw [intListMax]
    rcases foldl_max_mem t y with h1 | h1
    · rw [h1]
      exact List.mem_cons_self y t
    · exact List.mem_cons_of_mem y h1

/-! ## Claim C4: period aggregation bins -/

/-- C4 counterexample: with records only in 2024-01 and 2024-03, the monthly
aggregation emits a zero-filled row for the empty calendar month 2024-02
(sum 0, count 0, mean null) between the populated periods — the claim says
no such row may appear. -/
theorem C4_counterexample :
    (analyze_sales_by_period exGap .M).map (fun a => (a.label, a.total, a.cnt, a.mean))
      = [(24288, 100, 1, some 100), (24289, 0, 0, none), (24290, 50, 1, some 50)] := by
  decide

/-- C4 as amended: for any nonempty dataset and granularity, the by-period
aggregation emits exactly one row per calendar period between the earliest
and the latest populated period inclusive — zero-filling empty periods in
between with sum 0, count 0 and null mean — where each row carries the sum,
count and mean of the records of its period, and the bounding periods are
labels of actual records. -/
theorem C4_amended (rows : List SRow) (f : Freq) (hne : rows ≠ []) :
    (∀ k : Int, (∃ a ∈ analyze_sales_by_period rows f, a.label = k)
        ↔ (intListMin (rows.map (fun r => periodLabel f r.date)) ≤ k
            ∧ k ≤ intListMax (rows.map (fun r => periodLabel f r.date))))
    ∧ (∀ a ∈ analyze_sales_by_period rows f,
        a.total = ((rowsInBin f a.label rows).map (fun r => r.amount)).sum
        ∧ a.cnt = (rowsInBin f a.label rows).length
        ∧ (a.mean = none ↔ (rowsInBin f a.label rows).length = 0))
    ∧ (∃ r ∈ rows, periodLabel f r.date
          = intListMin (rows.map (fun r => periodLabel f r.date)))
    ∧ (∃ r ∈ rows, periodLabel f r.date
          = intListMax (rows.map (fun r => periodLabel f r.date))) := by
  obtain ⟨r0, rs, rfl⟩ := List.exists_cons_of_ne_nil hne
  have hbins : periodBins f (r0 :: rs)
      = intRange (intListMin ((r0 :: rs).map (fun r => periodLabel f r.date)))
          (intListMax ((r0 :: rs).map (fun r => periodLabel f r.date))) := rfl
  refine ⟨?_, ?_, ?_, ?_⟩
  · intro k
    constructor
    · rintro ⟨a, ha, rfl⟩
      rcases List.mem_map.mp ha with ⟨k', hk', rfl⟩
      rw [hbins] at hk'
      exact mem_intRange.mp hk'
    · rintro ⟨h1, h2⟩
      refine ⟨_, List.mem_map.mpr ⟨k, ?_, rfl⟩, rfl⟩
      rw [hbins]
      exact mem_intRange.mpr ⟨h1, h2⟩
  · intro a ha
    rcases List.mem_map.mp ha with ⟨k, _, rfl⟩
    dsimp only
    refine ⟨by rw [qsum_eq], rfl, ?_⟩
    by_cases hz : (rowsInBin f k (r0 :: rs)).length = 0
    · simp [hz]
    · simp [hz]
  · have hmem := intListMin_mem ((r0 :: rs).map (fun r => periodLabel f r.date)) (by simp)
    rcases List.mem_map.mp hmem with ⟨r, hr, hrl⟩
    exact ⟨r, hr, hrl⟩
  · have hmem := intListMax_mem ((r0 :: rs).map (fun r => periodLabel f r.date)) (by simp)
    rcases List.mem_map.mp hmem with ⟨r, hr, hrl⟩
    exact ⟨r, hr, hrl⟩

/-- C4 witness: for the January/March dataset, a row for the empty February
(bin 24289) exists in the monthly aggregation. -/
theorem C4_witness : ∃ a ∈ analyze_sales_by_period exGap .M, a.label = 24289 :=
  ((C4_amended exGap .M (by decide)).1 24289).mpr (by decide)

/-! ## Indexing lemmas for the growth table -/

theorem get?_getD {α : Type} (l : List α) (d : α) (j : Nat) (h : j < l.length) :
    l.get? j = some (l.getD j d) := by
  cases hx : l.get? j with
  | none =>
    have := List.get?_eq_none.mp hx
    omega
  | some v =>
    rw [List.getD_eq_get?, hx]
    rfl

theorem periodSums_length (f : Freq) (rows : List SRow) :
    (periodSums f rows).length = (periodBins f rows).length :=
  List.length_map _ _

theorem calculate_growth_rate_length (rows : List SRow) (f : Freq) :
    (calculate_growth_rate rows f).length = (periodBins f rows).length := by
  simp [calculate_growth_rate]

theorem calculate_growth_rate_get? (rows : List SRow) (f : Freq) (i : Nat)
    (h : i < (periodBins f rows).length) :
    (calculate_growth_rate rows f).get? i = some
      { label := (periodBins f rows).getD i 0,
        total := (periodSums f rows).getD i 0,
        prev := if i = 0 then none else (periodSums f rows).get? (i - 1),
        growth := pctChange ((periodSums f rows).getD i 0)
          (if i = 0 then none else (periodSums f rows).get? (i - 1)),
        yoyPrev := if f = Freq.M
          then some (if i < 12 then none else (periodSums f rows).get? (i - 12)) else none,
        yoyGrowth := (if f = Freq.M
          then some (if i < 12 then none else (periodSums f rows).get? (i - 12))
          else none).map (fun p => pctChange ((periodSums f rows).getD i 0) p) } := by
  simp only [calculate_growth_rate]
  rw [List.get?_map, List.get?_range h]
  rfl

/-! ## Claim C5: period-over-period growth -/

/-- C5 counterexample: with monthly sums 0 then 100, the second period's
growth value is +inf (float division of 100 by the zero preceding sum), not
null as the claim requires; the first period is null as expected. -/
theorem C5_counterexample :
    ((calculate_growth_rate exZeroFirst .M).get? 1).map (fun g => g.growth) = some PVal.inf
    ∧ ((calculate_growth_rate exZeroFirst .M).get? 0).map (fun g => g.growth) = some PVal.nan
    ∧ some PVal.inf ≠ some PVal.nan := by
  refine ⟨by decide, by decide, by decide⟩

/-- C5 as amended: every growth row holds the percent change against the
immediately preceding period's sum (the first row, with no predecessor, and
a zero-to-zero transition are null; a zero preceding sum with a nonzero
current sum gives +inf or -inf, not null; otherwise the rounded percentage),
and monthly granularity adds a year-over-year value with a 12-period lag
under the same rules (absent for other granularities). -/
theorem C5_amended (rows : List SRow) (f : Freq) (i : Nat) (row : GrowthRow)
    (h : (calculate_growth_rate rows f).get? i = some row) :
    (i = 0 → row.prev = none)
    ∧ (i ≠ 0 → row.prev
        = ((calculate_growth_rate rows f).get? (i - 1)).map (fun g => g.total))
    ∧ (row.growth = PVal.nan ↔ (i = 0 ∨ (row.prev = some 0 ∧ row.total = 0)))
    ∧ (row.growth = PVal.inf ↔ (i ≠ 0 ∧ row.prev = some 0 ∧ 0 < row.total))
    ∧ (row.growth = PVal.ninf ↔ (i ≠ 0 ∧ row.prev = some 0 ∧ row.total < 0))
    ∧ (∀ p : ℚ, row.prev = some p → p ≠ 0 →
        row.growth = PVal.val (round2 ((row.total - p) / p * 100)))
    ∧ (f = Freq.M →
        (i < 12 → row.yoyPrev = some none ∧ row.yoyGrowth = some PVal.nan)
        ∧ (12 ≤ i → row.yoyPrev
            = some (((calculate_growth_rate rows f).get? (i - 12)).map (fun g => g.total))))
    ∧ (f ≠ Freq.M → row.yoyPrev = none ∧ row.yoyGrowth = none) := by
  have hlen : i < (periodBins f rows).length := by
    by_contra hc
    rw [List.get?_eq_none.mpr (by rw [calculate_growth_rate_length]; omega)] at h
    cases h
  have hrow := calculate_growth_rate_get? rows f i hlen
  rw [h] at hrow
  have hrow' := Option.some.inj hrow
  have hslen : (periodSums f rows).length = (periodBins f rows).length :=
    periodSums_length f rows
  -- name the current and previous sums
  set cur := (periodSums f rows).getD i 0 with hcur
  by_cases hi : i = 0
  · subst hi
    rw [hrow']
    refine ⟨fun _ => by simp, fun hne => absurd rfl hne, ?_, ?_, ?_, ?_, ?_, ?_⟩
    · simp [pctChange]
    · simp [pctChange]
    · simp [pctChange]
    · intro p hp
      simp at hp
    · intro hfM
      subst hfM
      constructor
      · intro h12
        simp only [if_pos rfl, if_pos h12]
        refine ⟨rfl, ?_⟩
        simp [pctChange]
      · intro h12
        omega
    · intro hfn
      rw [if_neg hfn]
      exact ⟨rfl, rfl⟩
  · -- i ≥ 1: the shifted value is the previous period's sum
    have hprevlt : i - 1 < (periodSums f rows).length := by omega
    obtain ⟨p, hp⟩ : ∃ p : ℚ, (periodSums f rows).getD (i - 1) 0 = p := ⟨_, rfl⟩
    have hprev : (periodSums f rows).get? (i - 1) = some p := by
      rw [get?_getD _ 0 _ hprevlt, hp]
    have hprevrow : ((calculate_growth_rate rows f).get? (i - 1)).map (fun g => g.total)
        = some p := by
      rw [calculate_growth_rate_get? rows f (i - 1) (by omega)]
      simp only [Option.map_some']
      rw [hp]
    rw [hrow']
    simp only [if_neg hi]
    refine ⟨fun h0 => absurd h0 hi, fun _ => by rw [hprev, hprevrow], ?_, ?_, ?_, ?_, ?_, ?_⟩
    · -- nan iff
      rw [hprev]
      simp only [pctChange, qsub_eq]
      by_cases hpz : p = 0
      · subst hpz
        rw [if_pos rfl]
        by_cases hcz : cur - 0 = 0
        · rw [if_pos hcz]
          simp only [true_iff, iff_true]
          right
          exact ⟨by simp, by linarith [hcz]⟩
        · rw [if_neg hcz]
          constructor
          · intro hx
            split at hx <;> cases hx
          · rintro (h0 | ⟨_, hc0⟩)
            · exact absurd h0 hi
            · exfalso
              apply hcz
              rw [hc0]
              ring
      · rw [if_neg hpz]
        constructor
        · intro hx
          cases hx
        · rintro (h0 | ⟨hps, _⟩)
          · exact absurd h0 hi
          · exact absurd (Option.some.inj hps) hpz
    · -- inf iff
      rw [hprev]
      simp only [pctChange, qsub_eq]
      by_cases hpz : p = 0
      · subst hpz
        rw [if_pos rfl]
        by_cases hcz : cur - 0 = 0
        · rw [if_pos hcz]
          constructor
          · intro hx
            cases hx
          · rintro ⟨_, _, hcpos⟩
            exfalso
            have : cur = 0 := by linarith [hcz]
            linarith
        · rw [if_neg hcz]
          by_cases hcpos : 0 < cur - 0
          · rw [if_pos hcpos]
            simp only [true_iff]
            exact ⟨hi, by simp, by linarith⟩
          · rw [if_neg hcpos]
            constructor
            · intro hx
              cases hx
            · rintro ⟨_, _, hcp⟩
              exact absurd (by linarith : (0:ℚ) < cur - 0) hcpos
      · rw [if_neg hpz]
        constructor
        · intro hx
          cases hx
        · rintro ⟨_, hps, _⟩
          exact absurd (Option.some.inj hps) hpz
    · -- ninf iff
      rw [hprev]
      simp only [pctChange, qsub_eq]
      by_cases hpz : p = 0
      · subst hpz
        rw [if_pos rfl]
        by_cases hcz : cur - 0 = 0
        · rw [if_pos hcz]
          constructor
          · intro hx
            cases hx
          · rintro ⟨_, _, hcneg⟩
            exfalso
            have : cur = 0 := by linarith [hcz]
            linarith
        · rw [if_neg hcz]
          by_cases hcpos : 0 < cur - 0
          · rw [if_pos hcpos]
            constructor
            · intro hx
              cases hx
            · rintro ⟨_, _, hcn⟩
              linarith
          · rw [if_neg hcpos]
            simp only [true_iff]
            refine ⟨hi, by simp, ?_⟩
            rcases lt_trichotomy cur 0 with hlt | heq | hgt
            · exact hlt
            · exfalso
              apply hcz
              rw [heq]
              ring
            · exfalso
              exact hcpos (by linarith)
      · rw [if_neg hpz]
        constructor
        · intro hx
          cases hx
        · rintro ⟨_, hps, _⟩
          exact absurd (Option.some.inj hps) hpz
    · -- finite case
      intro p2 hp2 hp2ne
      rw [hprev] at hp2
      have he : p2 = p := (Option.some.inj hp2).symm
      rw [he] at hp2ne ⊢
      rw [hprev]
      simp only [pctChange, qsub_eq, qmul_eq, qdiv_eq]
      rw [if_neg hp2ne]
    · -- monthly year-over-year
      intro hfM
      subst hfM
      constructor
      · intro h12
        simp only [if_pos rfl, if_pos h12]
        refine ⟨rfl, ?_⟩
        simp [pctChange]
      · intro h12
        simp only [if_pos rfl, if_neg (by omega : ¬ i < 12)]
        have hmap : ((calculate_growth_rate rows Freq.M).get? (i - 12)).map (fun g => g.total)
            = (periodSums Freq.M rows).get? (i - 12) := by
          rw [calculate_growth_rate_get? rows Freq.M (i - 12)
              (by rw [← hslen] at hlen ⊢; omega),
            get?_getD (periodSums Freq.M rows) 0 (i - 12) (by rw [hslen]; omega)]
          rfl
        rw [hmap]
        simp
    · intro hfn
      rw [if_neg hfn]
      exact ⟨rfl, rfl⟩

/-- C5 witness: the amended statement applied at the zero-then-100 dataset,
index 1: the preceding sum is zero and the current sum positive, so the
growth value is +inf. -/
theorem C5_witness :
    (((calculate_growth_rate exZeroFirst .M).get? 1).getD gdummy).growth = PVal.inf :=
  ((C5_amended exZeroFirst .M 1
      (((calculate_growth_rate exZeroFirst .M).get? 1).getD gdummy)
      (by decide)).2.2.2.1).mpr ⟨by decide, by decide, by decide⟩


/-! ## Claim C6: rolling-window growth -/

/-- C6 counterexample: client A has records only in the prior window, so the
code's output row carries a missing (NaN) recent sum and a NaN growth — not
a zero recent sum with growth -100% as the claim's treat-absent-as-zero
reading requires. -/
theorem C6_counterexample :
    ((compareGrowth (fun r => r.client) exWindows 6).find? (fun w => w.entity == "A")).map
        (fun w => (w.recent, w.growth)) = some (none, PVal.nan)
    ∧ some ((none : Option ℚ), PVal.nan) ≠ some (some 0, PVal.val (-100)) := by
  refine ⟨by decide, by decide⟩

/-- C6 as amended: each output row of the rolling-window comparison carries
the per-entity sums of the recent window (date ≥ latest − W months) and the
prior window ([latest − 2W, latest − W)), with an entity absent from a
window receiving a null (NaN) sum — which makes the difference and the
growth percentage null — the entity set is exactly the set of keys with a
record in either window, and the rows are sorted descending by growth with
nulls last. -/
theorem C6_amended (key : SRow → String) (rows : List SRow) (months : Nat)
    (hne : rows ≠ []) :
    (∀ w ∈ compareGrowth key rows months,
        w.recent = windowSum key w.entity (windowRecentP rows months) rows
      ∧ w.prev = windowSum key w.entity (windowPrevP rows months) rows
      ∧ w.diff = optSub w.recent w.prev
      ∧ w.growth = growthOf w.recent w.prev)
    ∧ (∀ e : String, (∃ w ∈ compareGrowth key rows months, w.entity = e)
        ↔ ∃ r ∈ rows, key r = e
            ∧ (windowRecentP rows months r = true ∨ windowPrevP rows months r = true))
    ∧ List.Pairwise (fun a b => growthDescLe a b = true)
        (compareGrowth key rows months) := by
  have hperm := stableSort_perm growthDescLe
    ((windowEntities key rows months).map (windowRow key rows months))
  refine ⟨?_, ?_, ?_⟩
  · intro w hw
    have hw2 := hperm.mem_iff.mp hw
    rcases List.mem_map.mp hw2 with ⟨e, _, rfl⟩
    exact ⟨rfl, rfl, rfl, rfl⟩
  · intro e
    constructor
    · rintro ⟨w, hw, rfl⟩
      have hw2 := hperm.mem_iff.mp hw
      rcases List.mem_map.mp hw2 with ⟨e2, he2, rfl⟩
      have he3 := (stableSort_perm stringLeB _).mem_iff.mp he2
      rw [List.mem_dedup, List.mem_append] at he3
      rcases he3 with h | h
      · rcases List.mem_map.mp h with ⟨r, hr, rfl⟩
        rcases List.mem_filter.mp hr with ⟨hrmem, hrp⟩
        exact ⟨r, hrmem, rfl, Or.inl hrp⟩
      · rcases List.mem_map.mp h with ⟨r, hr, rfl⟩
        rcases List.mem_filter.mp hr with ⟨hrmem, hrp⟩
        exact ⟨r, hrmem, rfl, Or.inr hrp⟩
    · rintro ⟨r, hr, rfl, hwin⟩
      have hee : key r ∈ windowEntities key rows months := by
        rw [windowEntities, (stableSort_perm stringLeB _).mem_iff,
          List.mem_dedup, List.mem_append]
        rcases hwin with h | h
        · exact Or.inl (List.mem_map.mpr ⟨r, List.mem_filter.mpr ⟨hr, h⟩, rfl⟩)
        · exact Or.inr (List.mem_map.mpr ⟨r, List.mem_filter.mpr ⟨hr, h⟩, rfl⟩)
      refine ⟨windowRow key rows months (key r), ?_, rfl⟩
      rw [compareGrowth, hperm.mem_iff]
      exact List.mem_map.mpr ⟨key r, hee, rfl⟩
  · exact stableSort_pairwise growthDescLe growthDescLe_total growthDescLe_trans _

/-- C6 witness: for the concrete windows dataset, an output row for client A
(present only in the prior window) exists. -/
theorem C6_witness :
    ∃ w ∈ compareGrowth (fun r => r.client) exWindows 6, w.entity = "A" :=
  ((C6_amended (fun r => r.client) exWindows 6 (by decide)).2.1 "A").mpr
    ⟨mkRow 2024 1 15 "A" 100, by decide, by decide, Or.inr (by decide)⟩

/-! ## Claims C7 and C8: the forecast -/

theorem intRange_length (lo hi : Int) : (intRange lo hi).length = (hi + 1 - lo).toNat := by
  simp [intRange]

/-- C7 counterexample: a dataset spanning a single calendar month makes
`predict_future_sales` return nothing at all — the trailing 3/6/12-month
means are not reported, contrary to the claim. -/
theorem C7_counterexample : predict_future_sales exOneMonth 6 = none := by
  decide

/-- C7 as amended: the forecast returns a result iff the records span at
least two distinct calendar months (otherwise it returns null, reporting
neither the trend nor the trailing means); when it does, the result carries
the trailing 3/6/12-month means over the available months, the OLS slope,
and one prediction per requested month. -/
theorem C7_amended (rows : List SRow) (K : Nat) :
    ((predict_future_sales rows K).isSome
      ↔ ∃ r ∈ rows, ∃ q ∈ rows, periodLabel .M r.date ≠ periodLabel .M q.date)
    ∧ (∀ fc, predict_future_sales rows K = some fc →
        fc.avg3 = tailMean 3 (periodSums .M rows)
        ∧ fc.avg6 = tailMean 6 (periodSums .M rows)
        ∧ fc.avg12 = tailMean 12 (periodSums .M rows)
        ∧ fc.slope = olsSlope (periodSums .M rows)
        ∧ fc.predictions.length = K) := by
  constructor
  · cases hr : rows with
    | nil =>
      simp [predict_future_sales, periodSums, periodBins]
    | cons r0 rs =>
      rw [← hr]
      have hlab : rows.map (fun r => periodLabel .M r.date)
          = periodLabel .M r0.date :: rs.map (fun r => periodLabel .M r.date) := by
        rw [hr]
        rfl
      have hbins : periodBins .M rows
          = intRange (intListMin (rows.map (fun r => periodLabel .M r.date)))
              (intListMax (rows.map (fun r => periodLabel .M r.date))) := by
        rw [periodBins, hlab]
      have hlen : (periodSums .M rows).length
          = ((intListMax (rows.map (fun r => periodLabel .M r.date))) + 1
              - intListMin (rows.map (fun r => periodLabel .M r.date))).toNat := by
        rw [periodSums_length, hbins, intRange_length]
      have hmem0 : periodLabel .M r0.date ∈ rows.map (fun r => periodLabel .M r.date) := by
        rw [hlab]
        exact List.mem_cons_self _ _
      have hlohi : intListMin (rows.map (fun r => periodLabel .M r.date))
          ≤ intListMax (rows.map (fun r => periodLabel .M r.date)) :=
        le_trans (intListMin_le _ _ hmem0) (le_intListMax _ _ hmem0)
      constructor
      · intro hs
        rw [predict_future_sales] at hs
        by_cases hc : (periodSums .M rows).length ≤ 1
        · rw [if_pos hc] at hs
          cases hs
        · have hlt : intListMin (rows.map (fun r => periodLabel .M r.date))
              < intListMax (rows.map (fun r => periodLabel .M r.date)) := by
            rw [hlen] at hc
            omega
          have h1 := intListMin_mem (rows.map (fun r => periodLabel .M r.date))
            (by rw [hlab]; simp)
          have h2 := intListMax_mem (rows.map (fun r => periodLabel .M r.date))
            (by rw [hlab]; simp)
          rcases List.mem_map.mp h1 with ⟨r, hrm, hrl⟩
          rcases List.mem_map.mp h2 with ⟨q, hqm, hql⟩
          exact ⟨r, hrm, q, hqm, by rw [hrl, hql]; omega⟩
      · rintro ⟨r, hrm, q, hqm, hneq⟩
        have hrlab : periodLabel .M r.date ∈ rows.map (fun r => periodLabel .M r.date) :=
          List.mem_map.mpr ⟨r, hrm, rfl⟩
        have hqlab : periodLabel .M q.date ∈ rows.map (fun r => periodLabel .M r.date) :=
          List.mem_map.mpr ⟨q, hqm, rfl⟩
        have hb1 := intListMin_le _ _ hrlab
        have hb2 := le_intListMax _ _ hrlab
        have hb3 := intListMin_le _ _ hqlab
        have hb4 := le_intListMax _ _ hqlab
        rw [predict_future_sales, if_neg (by rw [hlen]; omega)]
        rfl
  · intro fc h
    rw [predict_future_sales] at h
    by_cases hc : (periodSums .M rows).length ≤ 1
    · rw [if_pos hc] at h
      cases h
    · rw [if_neg hc] at h
      have h2 := Option.some.inj h
      subst h2
      refine ⟨rfl, rfl, rfl, rfl, ?_⟩
      simp

/-- C7 witness: the three-month dataset has two records in distinct months,
as the amended statement's forward direction yields from a computed
forecast. -/
theorem C7_witness :
    ∃ r ∈ exTrend, ∃ q ∈ exTrend, periodLabel .M r.date ≠ periodLabel .M q.date :=
  (C7_amended exTrend 6).1.mp (by decide)

/-- C8: every predicted amount is at least zero, regardless of the slope's
sign or magnitude, because each prediction is clamped by max(0, ·). -/
theorem C8_forecast_floor (rows : List SRow) (K : Nat) (fc : Forecast)
    (h : predict_future_sales rows K = some fc) :
    ∀ p ∈ fc.predictions, 0 ≤ p.2 := by
  rw [predict_future_sales] at h
  by_cases hc : (periodSums .M rows).length ≤ 1
  · rw [if_pos hc] at h
    cases h
  · rw [if_neg hc] at h
    have h2 := Option.some.inj h
    subst h2
    intro p hp
    dsimp only at hp
    rcases List.mem_map.mp hp with ⟨j, _, rfl⟩
    dsimp only
    rw [qmax_eq]
    exact le_max_left 0 _

/-- C8 witness: the first prediction of the three-month trend dataset is
nonnegative. -/
theorem C8_witness :
    0 ≤ ((((predict_future_sales exTrend 2).getD fcDummy).predictions.getD 0 (0, -1))).2 :=
  C8_forecast_floor exTrend 2 ((predict_future_sales exTrend 2).getD fcDummy) (by decide)
    (((predict_future_sales exTrend 2).getD fcDummy).predictions.getD 0 (0, -1)) (by decide)

/-! ## Claim C9: statelessness and the annotation mutation -/

/-- C9 counterexample: `add_brand_column` mutates the dataset passed in (it
assigns the 브랜드 column on its argument), so the caller's frame differs
from the original after the call — the claim says every listed operation
leaves the input unchanged. -/
theorem C9_counterexample : (add_brand_column_state exNoBrand mapCanon).1 ≠ exNoBrand := by
  decide

/-- C9 as amended: the by-period, by-client, by-product and by-brand
aggregations, the growth computations and the forecast leave the caller's
dataset unchanged (they only read it or write to an internal copy), and can
be called repeatedly with different parameters; the brand annotation however
mutates the dataset in place, setting the 브랜드 column on every row — and
changes nothing besides that column. -/
theorem C9_amended :
    (∀ df f, (analyze_sales_by_period_state df f).1 = df)
    ∧ (∀ df n, (analyze_sales_by_client_state df n).1 = df)
    ∧ (∀ df n, (analyze_sales_by_product_state df n).1 = df)
    ∧ (∀ df n, (analyze_sales_by_brand_state df n).1 = df)
    ∧ (∀ df f, (calculate_growth_rate_state df f).1 = df)
    ∧ (∀ df n, (compare_brand_growth_state df n).1 = df)
    ∧ (∀ df n, (get_top_growing_clients_state df n).1 = df)
    ∧ (∀ df n, (predict_future_sales_state df n).1 = df)
    ∧ (∀ df m, ((add_brand_column_state df m).1).map eraseBrand = df.map eraseBrand)
    ∧ (∀ df m, (add_brand_column_state df m).1
        = df.map (fun r => { r with brand := some (extract_brand_from_product r.product m) })) := by
  refine ⟨fun _ _ => rfl, fun _ _ => rfl, fun _ _ => rfl, fun _ _ => rfl, fun _ _ => rfl,
    fun _ _ => rfl, fun _ _ => rfl, fun _ _ => rfl, ?_, fun _ _ => rfl⟩
  intro df m
  simp only [add_brand_column_state, add_brand_column, eraseBrand, List.map_map]
  rfl
